import Mathlib

/-!
Verification of the rosebud news pipeline.

This file is a shallow embedding of the two pipeline scripts of the
repository: the fetch/classify/dedup stage (`scripts/fetch-news.mjs`) and
the place/issue analysis stage (`scripts/analyse-news.mjs`).

Modelling conventions:
* JavaScript strings are Lean `String`s; character-level operations are
  defined on `List Char` and lifted at the boundary.  Case-insensitive
  regex matching (flag `i`) is modelled by lowercasing both pattern and
  subject, which is exact for the ASCII patterns appearing in the code.
* A JavaScript `Map` is modelled as an insertion-ordered association list:
  `Map.set` replaces the value in place for an existing key and appends a
  new key at the end, `Map.values()` is the list of values in that order.
  This matches the iteration-order guarantees of the ECMAScript spec.
* Date strings are modelled by their parsed epoch-millisecond value
  (`Option Int`); a missing/empty date field is `none`.  The coalescing
  `new Date(it.pubDate || 0)` of the source therefore becomes
  `Option.getD · 0`.
* `Array.prototype.sort`, which is stable per the ECMAScript spec, is
  modelled by a stable insertion sort (`stableSort` below).
* Network fetching and WHATWG URL parsing are external effects; they enter
  the embedding as explicit function parameters (`env`, `resolve`).
-/

/-! ## Character-level text primitives -/

/-- JavaScript regex whitespace class `\s` restricted to the ASCII range
(space, tab, line feed, vertical tab, form feed, carriage return). -/
def jsSpace (c : Char) : Bool :=
  c = ' ' || c = '\t' || c = '\n' || c = '\r' || c = '\x0b' || c = '\x0c'

/-- JavaScript regex word-character class `\w` = `[A-Za-z0-9_]`. -/
def wordChar (c : Char) : Bool :=
  c.isAlphanum || c = '_'

/-- ASCII lowercasing of a character list, modelling `String.prototype.toLowerCase`
on the ASCII texts handled by the pipeline. -/
def lowerL (l : List Char) : List Char :=
  l.map Char.toLower

/-- `includesL needle hay = true` iff `needle` occurs as a contiguous
substring of `hay`; models `String.prototype.includes` and an un-anchored
literal regex test. -/
def includesL (needle : List Char) : List Char → Bool
  | [] => needle.isEmpty
  | c :: rest => needle.isPrefixOf (c :: rest) || includesL needle rest

/-- Case-insensitive substring test: models `new RegExp(p, "i").test(s)` for a
literal pattern `p` (this is how the `EXCLUDE` patterns are evaluated). -/
def substrCI (pat s : String) : Bool :=
  includesL (lowerL pat.data) (lowerL s.data)

/-- Word-boundary `\b` between an optional preceding and following character:
the boundary holds iff exactly one side is a word character (a missing side
counts as non-word). -/
def boundaryB (a b : Option Char) : Bool :=
  (match a with | none => false | some c => wordChar c)
    != (match b with | none => false | some c => wordChar c)

/-- Does `pat` match at the head of `s` with word boundaries on both sides?
`prev` is the character immediately preceding the current position (none at
the start of the subject).  The character before the trailing boundary is the
last character of `pat` (word-character-ness is unaffected by case). -/
def wordAt (pat : List Char) (prev : Option Char) (s : List Char) : Bool :=
  pat.isPrefixOf s && boundaryB prev s.head? &&
    boundaryB (match pat.getLast? with | none => prev | some c => some c)
      ((s.drop pat.length).head?)

/-- Scan all positions of the subject for a `\b pat \b` match. -/
def wordScan (pat : List Char) (prev : Option Char) : List Char → Bool
  | [] => wordAt pat prev []
  | c :: rest => wordAt pat prev (c :: rest) || wordScan pat (some c) rest

/-- Case-insensitive whole-word test: models
`new RegExp("\\b" + p + "\\b", "i").test(s)` for a literal pattern `p`
(this is how the `INCLUDE` and `PLACES` patterns are evaluated). -/
def wordCI (pat s : String) : Bool :=
  wordScan (lowerL pat.data) none (lowerL s.data)

/-! ## Classifier (`scripts/fetch-news.mjs`) -/

/-- The `INCLUDE` pattern list, verbatim from the source; each entry is
compiled there as `new RegExp("\\b" + s + "\\b", "i")`. -/
def INCLUDE : List String :=
  ["election", "by-election", "by election",
   "council", "councillor", "council tax", "local plan", "mayor", "combined authority",
   "parliament", "mp ", "mps ", "msps", "ms ", "senedd", "stormont", "westminster", "whitehall",
   "manifesto", "policy", "pledge", "bill", "act", "legislation", "committee", "select committee",
   "poll", "polling", "mrp", "seat projection", "swing", "constituency",
   "budget", "spending", "tax", "nhs", "schools", "housing", "planning", "immigration", "benefits",
   "devolution", "transport", "rail", "buses", "clean air", "ulez", "levelling up",
   "police commissioner", "pcc", "crime", "justice"]

/-- The `EXCLUDE` pattern list, verbatim from the source; each entry is
compiled there as `new RegExp(s, "i")` — a plain substring pattern with no
word boundaries. -/
def EXCLUDE : List String :=
  ["strictly come dancing", "strictly", "love island", "big brother", "x factor",
   "britain\x27s got talent",
   "premier league", "champions league", "transfer", "fixture", "line-up", "lineup",
   "goal", "match report",
   "celebrity", "gossip", "royal family", "soap", "coronation street", "eastenders",
   "emmerdale",
   "lotto", "lottery", "horoscope", "weather warning"]

/-- `isPolitical` from the fetch script: build the haystack
`title + " " + summary`; return `false` if any `EXCLUDE` pattern matches,
otherwise return whether some `INCLUDE` pattern matches. -/
def isPolitical (title summary : String) : Bool :=
  let t := title ++ " " ++ summary
  if EXCLUDE.any (fun p => substrCI p t) then false
  else INCLUDE.any (fun p => wordCI p t)

/-- C1: exclusion takes precedence over inclusion — if any `EXCLUDE` pattern
matches the haystack built from title and summary, `isPolitical` returns
`false` (whatever the `INCLUDE` patterns do); and if no `EXCLUDE` pattern
matches, `isPolitical` returns `true` iff at least one `INCLUDE` pattern
matches. -/
theorem classifier_exclude_precedence (title summary : String) :
    ((∃ p ∈ EXCLUDE, substrCI p (title ++ " " ++ summary) = true) →
        isPolitical title summary = false) ∧
    ((∀ p ∈ EXCLUDE, substrCI p (title ++ " " ++ summary) = false) →
        (isPolitical title summary = true ↔
          ∃ p ∈ INCLUDE, wordCI p (title ++ " " ++ summary) = true)) := by
  constructor
  · rintro ⟨p, hp, hm⟩
    have hany : EXCLUDE.any (fun q => substrCI q (title ++ " " ++ summary)) = true :=
      List.any_eq_true.mpr ⟨p, hp, hm⟩
    simp [isPolitical, hany]
  · intro hnone
    have hany : EXCLUDE.any (fun q => substrCI q (title ++ " " ++ summary)) = false := by
      apply List.any_eq_false.mpr
      intro p hp
      simp [hnone p hp]
    simp [isPolitical, hany, List.any_eq_true]

/-- Witness for C1 at concrete inputs: a title matching the exclude pattern
`"strictly"` classifies negative, and an exclude-free title matching the
include pattern `"election"` classifies positive. -/
theorem classifier_exclude_precedence_witness :
    isPolitical "MP slams Strictly Come Dancing over funding row" "" = false ∧
    isPolitical "Council announces local election" "" = true := by
  constructor
  · exact (classifier_exclude_precedence
      "MP slams Strictly Come Dancing over funding row" "").1
      ⟨"strictly", by decide, by decide⟩
  · exact ((classifier_exclude_precedence "Council announces local election" "").2
      (by decide)).mpr ⟨"election", by decide, by decide⟩

/-- C2 counterexample: the spec asserts this title classifies positive, but
the `EXCLUDE` list contains the substring pattern `"transfer"`, which matches
`"... new transfer window ..."`, so `isPolitical` returns `false`. -/
theorem classifier_transfer_example_ce :
    isPolitical "Council announces new transfer window for housing" "" = false ∧
    "transfer" ∈ EXCLUDE := by
  constructor
  · decide
  · decide

/-- C2 amended: for the title
`"Council announces new transfer window for housing"` (empty summary),
`isPolitical` returns `false`: the include patterns `"council"` and
`"housing"` do match as whole words, but the exclude pattern `"transfer"`
also matches the text, and exclusion takes precedence. -/
theorem classifier_transfer_example :
    isPolitical "Council announces new transfer window for housing" "" = false ∧
    wordCI "council" ("Council announces new transfer window for housing" ++ " " ++ "") = true ∧
    wordCI "housing" ("Council announces new transfer window for housing" ++ " " ++ "") = true ∧
    "transfer" ∈ EXCLUDE ∧
    substrCI "transfer" ("Council announces new transfer window for housing" ++ " " ++ "") = true := by
  refine ⟨?_, ?_, ?_, ?_, ?_⟩ <;> decide

/-! ## A stable sort

`Array.prototype.sort` is required by the ECMAScript spec to be stable; with
a consistent comparator its result is the unique stable order.  We model it
with a structurally recursive stable insertion sort (`stableSort`), which
lets concrete runs be evaluated by the kernel. -/

/-- Insert `x` in front of the first element `y` with `le x y`.  Processing
the input with `List.foldr` makes this a stable sort: on ties (`le` holding
both ways) the earlier input element stays first. -/
def insSorted {α : Type} (le : α → α → Bool) (x : α) : List α → List α
  | [] => [x]
  | y :: ys => if le x y then x :: y :: ys else y :: insSorted le x ys

/-- Stable sort by the boolean preorder `le`. -/
def stableSort {α : Type} (le : α → α → Bool) (l : List α) : List α :=
  l.foldr (insSorted le) []

theorem insSorted_perm {α : Type} (le : α → α → Bool) (x : α) (l : List α) :
    List.Perm (insSorted le x l) (x :: l) := by
  induction l with
  | nil => exact List.Perm.refl _
  | cons y ys ih =>
    unfold insSorted
    split
    · exact List.Perm.refl _
    · exact (ih.cons y).trans (List.Perm.swap x y ys)

theorem stableSort_perm {α : Type} (le : α → α → Bool) (l : List α) :
    List.Perm (stableSort le l) l := by
  induction l with
  | nil => exact List.Perm.refl _
  | cons x xs ih => exact (insSorted_perm le x _).trans (ih.cons x)

theorem mem_stableSort {α : Type} (le : α → α → Bool) (l : List α) (a : α) :
    a ∈ stableSort le l ↔ a ∈ l :=
  (stableSort_perm le l).mem_iff

theorem pairwise_insSorted {α : Type} (le : α → α → Bool)
    (htr : ∀ a b c, le a b = true → le b c = true → le a c = true)
    (hto : ∀ a b, le a b = true ∨ le b a = true)
    (x : α) (l : List α) (hl : l.Pairwise (le · · = true)) :
    (insSorted le x l).Pairwise (le · · = true) := by
  induction l with
  | nil => simp [insSorted]
  | cons y ys ih =>
    rcases List.pairwise_cons.mp hl with ⟨hy, hys⟩
    unfold insSorted
    split
    · rename_i hxy
      refine List.pairwise_cons.mpr ⟨?_, hl⟩
      intro z hz
      rcases List.mem_cons.mp hz with hz | hz
      · exact hz ▸ hxy
      · exact htr x y z hxy (hy z hz)
    · rename_i hxy
      have hyx : le y x = true := by
        rcases hto x y with h | h
        · exact absurd h hxy
        · exact h
      refine List.pairwise_cons.mpr ⟨?_, ih hys⟩
      intro z hz
      rcases List.mem_cons.mp ((insSorted_perm le x ys).mem_iff.mp hz) with hz | hz
      · exact hz ▸ hyx
      · exact hy z hz

theorem pairwise_stableSort {α : Type} (le : α → α → Bool)
    (htr : ∀ a b c, le a b = true → le b c = true → le a c = true)
    (hto : ∀ a b, le a b = true ∨ le b a = true)
    (l : List α) :
    (stableSort le l).Pairwise (le · · = true) := by
  induction l with
  | nil => simp [stableSort]
  | cons x xs ih => exact pairwise_insSorted le htr hto x _ ih

/-! ## Association-list model of JavaScript `Map` -/

/-- `Map.prototype.get` (`undefined` becomes `none`). -/
def alLookup {κ α : Type} [DecidableEq κ] : List (κ × α) → κ → Option α
  | [], _ => none
  | (k', v') :: rest, k => if k' = k then some v' else alLookup rest k

/-- `Map.prototype.set`: replace the value in place for an existing key,
append a fresh key at the end — preserving the Map iteration order. -/
def alSet {κ α : Type} [DecidableEq κ] : List (κ × α) → κ → α → List (κ × α)
  | [], k, v => [(k, v)]
  | (k', v') :: rest, k, v =>
    if k' = k then (k', v) :: rest else (k', v') :: alSet rest k v

/-! ## Whitespace splitting and collapsing -/

/-- Helper for `splitWs`; `acc` holds the current word reversed. -/
def splitWsAux : List Char → List Char → List (List Char)
  | [], acc => if acc.isEmpty then [] else [acc.reverse]
  | c :: cs, acc =>
    if jsSpace c then
      if acc.isEmpty then splitWsAux cs [] else acc.reverse :: splitWsAux cs []
    else splitWsAux cs (c :: acc)

/-- `s.split(/\s+/).filter(Boolean)`: the maximal whitespace-free words of
`s`, in order. -/
def splitWs (l : List Char) : List (List Char) :=
  splitWsAux l []

/-- `s.replace(/\s+/g, " ").trim()`: collapsing every whitespace run to one
space and trimming is the same as joining the whitespace-separated words of
`s` with single spaces. -/
def collapseWs (s : String) : String :=
  String.intercalate " " ((splitWs s.data).map (fun w => String.mk w))

/-- JavaScript `a || b` for string-valued operands: the empty string and
`undefined` are falsy. -/
def jsOrS : Option String → Option String → Option String
  | some s, b => if s = "" then b else some s
  | none, b => b

/-! ## Fetch stage data model (`scripts/fetch-news.mjs`) -/

/-- A raw feed entry as exposed by `rss-parser`.  The two date fields carry
the parsed epoch-millisecond value of the corresponding date string
(`none` for an absent or empty field; note that a present date string is
truthy even when it denotes the epoch itself). -/
structure RawEntry where
  title : Option String
  contentSnippet : Option String
  content : Option String
  link : Option String
  isoDate : Option Int
  pubDate : Option Int
deriving DecidableEq

/-- A parsed feed: `feed.title` and `feed.items`. -/
structure Feed where
  title : Option String
  items : List RawEntry
deriving DecidableEq

/-- Outcome of `parser.parseURL(url)` for one candidate URL: a thrown error
(network failure, timeout, unparseable body) or a parsed feed. -/
inductive FetchResult where
  | err : FetchResult
  | ok : Feed → FetchResult
deriving DecidableEq

/-- A source registry entry: `{ name, candidates }`. -/
structure Source where
  name : String
  candidates : List String
deriving DecidableEq

/-- The canonical news item written to `news.json`.  `pubDate` is the parsed
epoch-millisecond value of the stored date string (`none` for `null`). -/
structure NewsItem where
  title : String
  link : String
  pubDate : Option Int
  source : String
  summary : String
deriving DecidableEq

/-- `normalize(item, sourceTitle)` from the fetch script (renamed: Mathlib
already declares a global `normalize`). -/
def normalizeEntry (item : RawEntry) (sourceTitle : String) : NewsItem :=
  { title := item.title.getD ""
    link := item.link.getD ""
    pubDate := item.isoDate.orElse (fun _ => item.pubDate)
    source := sourceTitle
    summary := collapseWs ((jsOrS item.contentSnippet item.content).getD "") }

/-- `parseWithFallback(candidates)`: try each candidate URL in order under
the fetch environment `env`; a thrown error or a feed with no items moves on
to the next candidate; the first feed with at least one item is returned
together with its URL; `none` models the final `throw`. -/
def parseWithFallback (env : String → FetchResult) : List String → Option (Feed × String)
  | [] => none
  | url :: rest =>
    match env url with
    | .err => parseWithFallback env rest
    | .ok feed => if feed.items.isEmpty then parseWithFallback env rest else some (feed, url)

/-- The per-source body of the fetch loop: on fallback failure the source
contributes nothing (the catch branch only logs); otherwise its entries are
normalized under `feed.title || src.name` and filtered by `isPolitical`. -/
def sourceItems (env : String → FetchResult) (src : Source) : List NewsItem :=
  match parseWithFallback env src.candidates with
  | none => []
  | some (feed, _) =>
    let sourceTitle := (jsOrS feed.title (some src.name)).getD ""
    (feed.items.map (fun raw => normalizeEntry raw sourceTitle)).filter
      (fun it => isPolitical it.title it.summary)

/-- The accumulated `all` list of the fetch loop over every source. -/
def collectAll (env : String → FetchResult) (sources : List Source) : List NewsItem :=
  (sources.map (sourceItems env)).flatten

/-- The deduplication key: `` `${it.source}__${it.title}`.toLowerCase() ``. -/
def dedupKey (it : NewsItem) : String :=
  String.mk (lowerL (it.source ++ "__" ++ it.title).data)

/-- The effective date used by dedup and ranking:
`new Date(it.pubDate || 0)` — a missing date coalesces to the epoch. -/
def effDate (it : NewsItem) : Int :=
  it.pubDate.getD 0

/-- One step of the dedup loop: keep the stored item unless the incoming one
has a strictly later effective date. -/
def dedupStep (m : List (String × NewsItem)) (it : NewsItem) : List (String × NewsItem) :=
  let k := dedupKey it
  match alLookup m k with
  | none => alSet m k it
  | some prev => if effDate prev < effDate it then alSet m k it else m

/-- `Array.from(map.values())` after the dedup loop. -/
def dedupe (items : List NewsItem) : List NewsItem :=
  (items.foldl dedupStep []).map (fun p => p.2)

/-- Sort descending by effective date and truncate:
`.sort((a, b) => new Date(b.pubDate || 0) - new Date(a.pubDate || 0)).slice(0, 200)`. -/
def rankItems (all : List NewsItem) : List NewsItem :=
  (stableSort (fun a b => decide (effDate b ≤ effDate a)) (dedupe all)).take 200

/-- The `news.json` artifact (the `updatedAt` wall-clock timestamp is outside
the embedding). -/
structure NewsArtifact where
  items : List NewsItem
deriving DecidableEq

/-- The fetch stage end to end: collect, dedup, rank, write. -/
def fetchMain (env : String → FetchResult) (sources : List Source) : NewsArtifact :=
  { items := rankItems (collectAll env sources) }

/-! ## Deduplication and ranking (claims C3, C4) -/

/-- The ordering asserted by the specification's deduplication/ranking
sentences (spec-side definition, used only to state counterexamples):
`specLater x y` means pub date `x` is strictly later than pub date `y`,
where a missing date is "the earliest possible date", strictly earlier
than every present date. -/
def specLater : Option Int → Option Int → Prop
  | some i, some j => j < i
  | some _, none => True
  | none, _ => False

/-- C3 amended: for two items with equal deduplication keys, exactly one
survives — the one whose effective date `new Date(pubDate || 0)` is strictly
later, the first-encountered one on ties; the survivor's effective date is
the maximum of the two.  (A missing `pubDate` is treated as the epoch, not
as an "earliest possible" date.) -/
theorem dedup_later_wins (a b : NewsItem) (hk : dedupKey a = dedupKey b) :
    dedupe [a, b] = [if effDate a < effDate b then b else a] ∧
    effDate (if effDate a < effDate b then b else a) = max (effDate a) (effDate b) := by
  constructor
  · show (List.foldl dedupStep [] [a, b]).map (fun p => p.2) = _
    simp only [List.foldl]
    rw [show dedupStep [] a = [(dedupKey a, a)] from rfl]
    simp only [dedupStep, hk, alLookup, if_pos]
    by_cases h : effDate a < effDate b
    · simp [h, alSet]
    · simp [h]
  · by_cases h : effDate a < effDate b
    · simp [h, max_eq_right (le_of_lt h)]
    · simp [h, max_eq_left (le_of_not_lt h)]

/-- Two items sharing a key up to case, with distinct pub dates. -/
def dupA : NewsItem :=
  { title := "Vote", link := "a", pubDate := some 5, source := "Feed", summary := "" }

/-- See `dupA`. -/
def dupB : NewsItem :=
  { title := "vote", link := "b", pubDate := some 9, source := "FEED", summary := "" }

/-- Witness for C3 (amended): on a concrete same-key pair the later-dated
item is the unique survivor. -/
theorem dedup_later_wins_witness :
    dedupKey dupA = dedupKey dupB ∧ dedupe [dupA, dupB] = [dupB] := by
  have hk : dedupKey dupA = dedupKey dupB := by decide
  have h := (dedup_later_wins dupA dupB hk).1
  rw [if_pos (show effDate dupA < effDate dupB by decide)] at h
  exact ⟨hk, h⟩

/-- A same-key pair refuting the "missing `pubDate` is earliest possible"
reading: the first item has no date. -/
def dupMissing : NewsItem :=
  { title := "t", link := "", pubDate := none, source := "s", summary := "" }

/-- See `dupMissing`: dated exactly at the Unix epoch. -/
def dupEpoch : NewsItem :=
  { title := "T", link := "", pubDate := some 0, source := "S", summary := "" }

/-- C3 counterexample: `dupEpoch` has a pub date strictly later than the
claim's "earliest possible" reading of `dupMissing`'s missing date, yet the
code keeps `dupMissing`: `new Date(pubDate || 0)` coalesces a missing date
to the epoch, so the strict `>` comparison ties and the first item wins. -/
theorem dedup_missing_date_ce :
    dedupKey dupMissing = dedupKey dupEpoch ∧
    specLater dupEpoch.pubDate dupMissing.pubDate ∧
    dupEpoch ≠ dupMissing ∧
    dedupe [dupMissing, dupEpoch] = [dupMissing] := by
  refine ⟨by decide, ?_, by decide, by decide⟩
  show specLater (some 0) none
  trivial

/-- C4 amended: the ranked output is non-increasing in the effective date
`new Date(pubDate || 0)` (a missing date sorting as the epoch, not as
oldest) and is truncated to at most 200 items. -/
theorem ranked_sorted_truncated (all : List NewsItem) :
    (rankItems all).Pairwise (fun a b => effDate b ≤ effDate a) ∧
    (rankItems all).length ≤ 200 := by
  constructor
  · have hs : (stableSort (fun a b => decide (effDate b ≤ effDate a)) (dedupe all)).Pairwise
        (fun a b => decide (effDate b ≤ effDate a) = true) :=
      pairwise_stableSort _
        (fun a b c hab hbc => by
          simp only [decide_eq_true_eq] at *
          omega)
        (fun a b => by
          by_cases h : effDate b ≤ effDate a
          · exact Or.inl (by simpa using h)
          · exact Or.inr (by simp only [decide_eq_true_eq]; omega))
        (dedupe all)
    have hp : (stableSort (fun a b => decide (effDate b ≤ effDate a)) (dedupe all)).Pairwise
        (fun a b => effDate b ≤ effDate a) :=
      hs.imp (fun h => of_decide_eq_true h)
    exact List.Pairwise.sublist (List.take_sublist 200 _) hp
  · exact List.length_take_le 200 _

/-- An undated item, ranked. -/
def rankMissing : NewsItem :=
  { title := "A", link := "", pubDate := none, source := "SA", summary := "" }

/-- An epoch-dated item, ranked. -/
def rankEpoch : NewsItem :=
  { title := "B", link := "", pubDate := some 0, source := "SB", summary := "" }

/-- C4 counterexample: the ranked output keeps the missing-date item *ahead*
of an item dated at the epoch, so the output is not non-increasing under the
claim's order in which a missing date sorts as oldest. -/
theorem ranking_missing_date_ce :
    rankItems [rankMissing, rankEpoch] = [rankMissing, rankEpoch] ∧
    rankMissing.pubDate = none ∧ rankEpoch.pubDate = some 0 ∧
    ¬ (rankItems [rankMissing, rankEpoch]).Pairwise
        (fun x y => specLater x.pubDate y.pubDate ∨ x.pubDate = y.pubDate) := by
  have h1 : rankItems [rankMissing, rankEpoch] = [rankMissing, rankEpoch] := by decide
  refine ⟨h1, rfl, rfl, ?_⟩
  rw [h1]
  intro h
  rcases List.pairwise_cons.mp h with ⟨hhead, _⟩
  rcases hhead rankEpoch (by simp) with h' | h'
  · exact h'
  · exact absurd h' (by decide)

/-! ## Fetcher fallback (claims C5, C6) -/

/-- A candidate URL "succeeds" when the fetch responds with a parsed feed
holding at least one entry. -/
def candidateYields (env : String → FetchResult) (url : String) : Prop :=
  ∃ f, env url = .ok f ∧ f.items ≠ []

/-- C5: if the fallback loop accepts `(feed, url)` then `url` responded with
exactly `feed`, `feed` has at least one entry, and every candidate listed
before `url` failed (error or zero entries).  In particular the accepted
feed is the response of the single accepted candidate — never a merge. -/
theorem fallback_first_success (env : String → FetchResult)
    (cs : List String) (feed : Feed) (url : String)
    (h : parseWithFallback env cs = some (feed, url)) :
    env url = .ok feed ∧ feed.items ≠ [] ∧
    ∃ pre post, cs = pre ++ url :: post ∧ ∀ u ∈ pre, ¬ candidateYields env u := by
  induction cs with
  | nil => simp [parseWithFallback] at h
  | cons c rest ih =>
    rw [parseWithFallback] at h
    cases henv : env c with
    | err =>
      rw [henv] at h
      simp only at h
      rcases ih h with ⟨h1, h2, pre, post, hsplit, hpre⟩
      refine ⟨h1, h2, c :: pre, post, by rw [hsplit]; rfl, ?_⟩
      intro u hu
      rcases List.mem_cons.mp hu with rfl | hu
      · rintro ⟨f, hf, _⟩
        rw [henv] at hf
        cases hf
      · exact hpre u hu
    | ok f =>
      rw [henv] at h
      simp only at h
      by_cases hemp : f.items.isEmpty
      · rw [if_pos hemp] at h
        rcases ih h with ⟨h1, h2, pre, post, hsplit, hpre⟩
        refine ⟨h1, h2, c :: pre, post, by rw [hsplit]; rfl, ?_⟩
        intro u hu
        rcases List.mem_cons.mp hu with rfl | hu
        · rintro ⟨f', hf', hne⟩
          rw [henv] at hf'
          cases hf'
          exact hne (List.isEmpty_iff.mp hemp)
        · exact hpre u hu
      · rw [if_neg hemp] at h
        injection h with h'
        injection h' with hfeed hurl
        subst hfeed
        subst hurl
        exact ⟨henv, fun hnil => hemp (by simp [hnil]), [], rest, rfl, by simp⟩

/-- A one-entry feed used by the fetch witnesses. -/
def feedW : Feed :=
  { title := some "Witness feed"
    items := [{ title := some "Budget vote"
                contentSnippet := none
                content := none
                link := none
                isoDate := none
                pubDate := none }] }

/-- A fetch environment where only the URL `"u2"` responds usefully. -/
def envW : String → FetchResult := fun u =>
  if u = "u2" then .ok feedW else .err

/-- Witness for C5: with candidate 1 failing and candidate 2 succeeding,
the fallback accepts candidate 2's feed, which responded with `feedW` and
has entries. -/
theorem fallback_first_success_witness :
    envW "u2" = .ok feedW ∧ feedW.items ≠ [] := by
  have h := fallback_first_success envW ["u1", "u2"] feedW "u2" (by decide)
  exact ⟨h.1, h.2.1⟩

/-- C6: a source all of whose candidates fail contributes nothing and does
not disturb the rest of the run: the collected item list, and hence the
whole written artifact, equal those of the same run without the failing
source — every remaining source is still processed. -/
theorem source_failure_is_isolated (env : String → FetchResult)
    (pre post : List Source) (s : Source)
    (hfail : parseWithFallback env s.candidates = none) :
    collectAll env (pre ++ s :: post) = collectAll env (pre ++ post) ∧
    fetchMain env (pre ++ s :: post) = fetchMain env (pre ++ post) := by
  have hs : sourceItems env s = [] := by
    unfold sourceItems
    rw [hfail]
  have hc : collectAll env (pre ++ s :: post) = collectAll env (pre ++ post) := by
    unfold collectAll
    rw [List.map_append, List.map_cons, hs, List.map_append]
    simp [List.flatten_append]
  exact ⟨hc, by unfold fetchMain; rw [hc]⟩

/-- Witness for C6: a concrete run with a dead source (single candidate
`"u1"`, which `envW` rejects) produces the same artifact as the run without
it, the live source `"u2"` still being fetched. -/
theorem source_failure_is_isolated_witness :
    fetchMain envW [{ name := "Dead", candidates := ["u1"] },
                    { name := "Live", candidates := ["u2"] }] =
      fetchMain envW [{ name := "Live", candidates := ["u2"] }] := by
  exact (source_failure_is_isolated envW []
    [{ name := "Live", candidates := ["u2"] }]
    { name := "Dead", candidates := ["u1"] } (by decide)).2

/-! ## Analysis stage data model (`scripts/analyse-news.mjs`) -/

/-- The `DOMAIN_TO_PLACE` object literal, verbatim (including the repeated
`birminghammail.co.uk` key of the source, both mapping to `"Birmingham"`). -/
def DOMAIN_TO_PLACE : List (String × String) :=
  [("theboltonnews.co.uk", "Bolton"),
   ("wigantoday.net", "Wigan"),
   ("manchestereveningnews.co.uk", "Manchester"),
   ("liverpoolecho.co.uk", "Liverpool"),
   ("yorkshirepost.co.uk", "Yorkshire"),
   ("edinburghnews.scotsman.com", "Edinburgh"),
   ("glasgowtimes.co.uk", "Glasgow"),
   ("birminghammail.co.uk", "Birmingham"),
   ("bristolpost.co.uk", "Bristol"),
   ("leeds-live.co.uk", "Leeds"),
   ("lancs.live", "Lancashire"),
   ("nottinghampost.com", "Nottingham"),
   ("leicestermercury.co.uk", "Leicester"),
   ("cambridge-news.co.uk", "Cambridge"),
   ("oxfordmail.co.uk", "Oxford"),
   ("kentonline.co.uk", "Kent"),
   ("somersetlive.co.uk", "Somerset"),
   ("devonlive.com", "Devon"),
   ("cornwalllive.com", "Cornwall"),
   ("northamptonchron.co.uk", "Northampton"),
   ("edinburghlive.co.uk", "Edinburgh"),
   ("birminghammail.co.uk", "Birmingham"),
   ("eveningnews24.co.uk", "Norwich"),
   ("derbytelegraph.co.uk", "Derby"),
   ("stokesentinel.co.uk", "Stoke-on-Trent"),
   ("coventrytelegraph.net", "Coventry"),
   ("belfasttelegraph.co.uk", "Belfast"),
   ("walesonline.co.uk", "Wales"),
   ("pressandjournal.co.uk", "Aberdeen")]

/-- The `SOURCE_TO_PLACE` object literal, verbatim. -/
def SOURCE_TO_PLACE : List (String × String) :=
  [("The Bolton News", "Bolton"),
   ("Wigan Today", "Wigan"),
   ("Manchester Evening News", "Manchester"),
   ("Liverpool Echo", "Liverpool"),
   ("Yorkshire Post", "Yorkshire"),
   ("Edinburgh Evening News", "Edinburgh"),
   ("Glasgow Times", "Glasgow"),
   ("Birmingham Mail", "Birmingham"),
   ("Bristol Post", "Bristol"),
   ("Leeds Live", "Leeds"),
   ("Lancs Live", "Lancashire"),
   ("Nottingham Post", "Nottingham"),
   ("Leicester Mercury", "Leicester"),
   ("Cambridge News", "Cambridge"),
   ("Oxford Mail", "Oxford"),
   ("Somerset Live", "Somerset"),
   ("Devon Live", "Devon"),
   ("Cornwall Live", "Cornwall"),
   ("Northampton Chronicle", "Northampton"),
   ("Edinburgh Live", "Edinburgh"),
   ("Coventry Telegraph", "Coventry"),
   ("WalesOnline", "Wales"),
   ("Press and Journal", "Aberdeen")]

/-- Property read on a JS object literal: with duplicate literal keys the
later entry silently overwrites the earlier one, so we look the key up in
the reversed entry list. -/
def objGet (m : List (String × String)) (k : String) : Option String :=
  alLookup m.reverse k

/-- The `PLACES` array, verbatim. -/
def PLACES : List String :=
  ["Bolton", "Wigan", "Manchester", "Salford", "Bury", "Rochdale", "Oldham", "Tameside",
   "Stockport", "Trafford",
   "Liverpool", "Sefton", "Wirral", "Knowsley", "St Helens", "Halton",
   "Leeds", "Bradford", "Kirklees", "Calderdale", "Wakefield",
   "Birmingham", "Solihull", "Sandwell", "Walsall", "Dudley", "Wolverhampton",
   "Bristol", "Bath", "Somerset", "Gloucestershire",
   "Sheffield", "Rotherham", "Barnsley", "Doncaster",
   "Nottingham", "Leicester", "Cambridge", "Oxford", "Coventry", "Derby", "Stoke-on-Trent",
   "Northampton",
   "Newcastle", "Gateshead", "Sunderland", "North Tyneside", "South Tyneside",
   "Lancashire", "Yorkshire", "Norwich",
   "London", "Westminster", "Camden", "Islington", "Hackney", "Tower Hamlets", "Newham",
   "Barking", "Dagenham",
   "Croydon", "Lambeth", "Southwark", "Lewisham", "Greenwich", "Haringey", "Enfield",
   "Ealing", "Hounslow",
   "Edinburgh", "Glasgow", "Aberdeen", "Dundee",
   "Cardiff", "Swansea", "Newport", "Wrexham", "Flintshire", "Wales",
   "Belfast", "Derry", "Lisburn", "Newry", "Northern Ireland"]

/-- The `STOP` set, verbatim. -/
def STOP : List String :=
  ["the", "a", "an", "and", "or", "of", "to", "for", "in", "on", "at", "by", "from",
   "with", "about", "after", "over",
   "into", "uk", "britain", "british", "england", "scotland", "wales", "northern",
   "ireland", "today", "new", "plan", "plans", "says",
   "amid", "as", "vs", "pm", "mp", "mps", "council", "councils"]

/-- Leftmost-anchored match of the literal scheme part of the URL regex
`https?:\/\/`: if the list starts with `http://` or `https://`, return the
remainder. -/
def urlScheme : List Char → Option (List Char)
  | 'h' :: 't' :: 't' :: 'p' :: ':' :: '/' :: '/' :: r => some r
  | 'h' :: 't' :: 't' :: 'p' :: 's' :: ':' :: '/' :: '/' :: r => some r
  | _ => none

/-- `s.replace(/https?:\/\/\S+/g, " ")`: scan left to right; at a position
starting with a URL scheme followed by at least one non-space character,
replace the scheme and the maximal non-space run by a single space and
continue after it; otherwise emit the character and move on.  The `fuel`
argument makes the recursion structural (every step consumes at least one
character, so `fuel = length` never runs out); this keeps the function
evaluable by the kernel. -/
def stripURLsF : Nat → List Char → List Char
  | 0, l => l
  | _, [] => []
  | fuel + 1, c :: cs =>
    match urlScheme (c :: cs) with
    | some r =>
      if (r.takeWhile (fun ch => !jsSpace ch)).isEmpty then c :: stripURLsF fuel cs
      else ' ' :: stripURLsF fuel (r.dropWhile (fun ch => !jsSpace ch))
    | none => c :: stripURLsF fuel cs

/-- See `stripURLsF`. -/
def stripURLs (l : List Char) : List Char :=
  stripURLsF l.length l

/-- `tokens` from the analysis script: lowercase, blank out URLs, replace
every character outside `[a-z0-9\s-]` by a space, split on whitespace and
drop empties. -/
def tokensJS (s : String) : List String :=
  let cleaned := (stripURLs (lowerL s.data)).map
    (fun c => if ('a' ≤ c && c ≤ 'z') || ('0' ≤ c && c ≤ '9') || c = '-' || jsSpace c
              then c else ' ')
  (splitWs cleaned).map (fun w => String.mk w)

/-- `isContent` from the analysis script: keep tokens longer than two
characters that are neither stop-words nor purely numeric. -/
def isContent (w : String) : Bool :=
  w.length > 2 && !(STOP.contains w) && !(w.data.all Char.isDigit)

/-- The two frequency tables produced by `phrases`. -/
structure Phrases where
  uni : List (String × Nat)
  bi : List (String × Nat)
deriving DecidableEq

/-- `m.set(k, (m.get(k) || 0) + v)`. -/
def bumpCount (m : List (String × Nat)) (k : String) (v : Nat) : List (String × Nat) :=
  alSet m k ((alLookup m k).getD 0 + v)

/-- JS template-literal stringification of a possibly-missing field
(`undefined` interpolates as the text "undefined"). -/
def jsStr : Option String → String
  | none => "undefined"
  | some s => s

/-- `phrases(title, summary)` from the analysis script: unigram counts of
the stop-word-filtered token sequence, and bigram counts of the pairs of
adjacent tokens of that same filtered sequence. -/
def phrasesJS (title summary : Option String) : Phrases :=
  let t := (tokensJS (jsStr title ++ " " ++ jsStr summary)).filter isContent
  { uni := t.foldl (fun m w => bumpCount m w 1) []
    bi := (t.zip t.tail).foldl (fun m p => bumpCount m (p.1 ++ " " ++ p.2) 1) [] }

/-- `placeFromText(s)`: the configured place names occurring in `s` as
case-insensitive whole words, in `PLACES` order. -/
def placeFromText (s : String) : List String :=
  PLACES.filter (fun p => wordCI p s)

/-- `topN(m, n)`: Map entries in insertion order, stably sorted by count
descending, truncated to `n` (the `{text, count}` wrapper of the source is
transparent and omitted). -/
def topN (m : List (String × Nat)) (n : Nat) : List (String × Nat) :=
  (stableSort (fun a b => decide (b.2 ≤ a.2)) m).take n

/-- `^www\.` stripping (case-sensitive, as in the source regex). -/
def stripWWW : List Char → List Char
  | 'w' :: 'w' :: 'w' :: '.' :: rest => rest
  | h => h

/-- `hostnameOf(url)` over an abstract WHATWG URL parser `resolve` (which
returns the hostname, or `none` exactly when `new URL(url)` would throw):
the catch branch yields the empty string, otherwise the hostname with a
leading `www.` removed, lowercased. -/
def hostnameOf (resolve : String → Option String) (url : String) : String :=
  match resolve url with
  | none => ""
  | some h => String.mk (lowerL (stripWWW h.data))

/-- An item record as read back from `news.json` by the analysis script;
every field may be absent. -/
structure AItem where
  title : Option String
  summary : Option String
  link : Option String
  source : Option String
  pubDate : Option String
deriving DecidableEq

/-- JS `x || ""` for a string field. -/
def orEmpty : Option String → String
  | none => ""
  | some s => s

/-- `String.prototype.trim` (ASCII whitespace). -/
def trimJS (s : String) : String :=
  String.mk (((s.data.dropWhile (fun c => jsSpace c)).reverse.dropWhile
    (fun c => jsSpace c)).reverse)

/-- `Array.from` of a JS `Set` built by successive `add`s: first-occurrence
order, duplicates dropped.  `seen` accumulates the values already kept. -/
def dedupFirstAux (seen : List String) : List String → List String
  | [] => []
  | x :: xs =>
    if x ∈ seen then dedupFirstAux seen xs
    else x :: dedupFirstAux (x :: seen) xs

/-- See `dedupFirstAux`. -/
def dedupFirst (l : List String) : List String :=
  dedupFirstAux [] l

/-- `inferPlaces(it)` from the analysis script, over the abstract URL parser
`resolve`: union (in insertion order) of (1) whole-word place matches in
title+summary, (2) the domain-table entry of the link hostname, (3) the
source-table entry of the trimmed source name, (4) whole-word place matches
inside the source name. -/
def inferPlaces (resolve : String → Option String) (it : AItem) : List String :=
  let text := orEmpty it.title ++ " " ++ orEmpty it.summary
  let host := hostnameOf resolve (orEmpty it.link)
  let hostPlaces := if host ≠ "" then
      match objGet DOMAIN_TO_PLACE host with
      | some p => [p]
      | none => []
    else []
  let src := trimJS (orEmpty it.source)
  let srcMapPlaces := if src ≠ "" then
      match objGet SOURCE_TO_PLACE src with
      | some p => [p]
      | none => []
    else []
  let srcTextPlaces := if src ≠ "" then placeFromText src else []
  dedupFirst (placeFromText text ++ hostPlaces ++ srcMapPlaces ++ srcTextPlaces)

/-- The example record stored in a bucket:
`{ title: it.title, link: it.link, source: it.source, pubDate: it.pubDate }`. -/
structure BItem where
  title : Option String
  link : Option String
  source : Option String
  pubDate : Option String
deriving DecidableEq

/-- See `BItem`. -/
def exampleOf (it : AItem) : BItem :=
  { title := it.title, link := it.link, source := it.source, pubDate := it.pubDate }

/-- The per-place example-map key `it.link || it.title` (JS `||` value
semantics on possibly-missing strings). -/
def bucketKey (it : AItem) : Option String :=
  match it.link with
  | some l => if l = "" then it.title else some l
  | none => it.title

/-- The per-place accumulator `{ items, uni, bi }`. -/
structure Bucket where
  items : List (Option String × BItem)
  uni : List (String × Nat)
  bi : List (String × Nat)
deriving DecidableEq

/-- The fresh bucket `{ items: new Map(), uni: new Map(), bi: new Map() }`. -/
def emptyBucket : Bucket :=
  { items := [], uni := [], bi := [] }

/-- `for (const [k, v] of src) dst.set(k, (dst.get(k) || 0) + v)`. -/
def mergeCounts (dst src : List (String × Nat)) : List (String × Nat) :=
  src.foldl (fun m kv => bumpCount m kv.1 kv.2) dst

/-- The inner body of the bucket loop for one place: record the item's
example under its key if the key is new, and merge its unigram/bigram
tables into the bucket's. -/
def addToBucket (b : Bucket) (it : AItem) (ph : Phrases) : Bucket :=
  let k := bucketKey it
  { items := if (alLookup b.items k).isSome then b.items
             else alSet b.items k (exampleOf it)
    uni := mergeCounts b.uni ph.uni
    bi := mergeCounts b.bi ph.bi }

/-- Processing of one news item: items with no inferred place are skipped;
otherwise the item's phrase tables are computed once and the item is added
to the bucket of every inferred place. -/
def bucketStep (resolve : String → Option String)
    (bs : List (String × Bucket)) (it : AItem) : List (String × Bucket) :=
  let places := inferPlaces resolve it
  if places.isEmpty then bs
  else
    let ph := phrasesJS it.title it.summary
    places.foldl
      (fun acc p => alSet acc p (addToBucket ((alLookup acc p).getD emptyBucket) it ph)) bs

/-- The full bucket map over the item list, in first-encounter place order. -/
def buildBuckets (resolve : String → Option String)
    (items : List AItem) : List (String × Bucket) :=
  items.foldl (bucketStep resolve) []

/-- One `areas` record of `mood.json`. -/
structure Area where
  place : String
  sampleCount : Nat
  issues : List String
  keywords : List String
  examples : List BItem
deriving DecidableEq

/-- Bucket → area: top-10 bigrams as issues; top-10 unigrams minus those
occurring as substrings of an issue as keywords; the first 8 stored
examples; `sampleCount` is the size of the per-place example map. -/
def mkArea (p : String) (b : Bucket) : Area :=
  let issues := (topN b.bi 10).map (fun e => e.1)
  { place := p
    sampleCount := b.items.length
    issues := issues
    keywords := ((topN b.uni 10).map (fun e => e.1)).filter
      (fun w => !(issues.any (fun i => includesL w.data i.data)))
    examples := (b.items.map (fun kv => kv.2)).take 8 }

/-- The `areas` array written to `mood.json`: one record per bucket, sorted
stably by `sampleCount` descending. -/
def areasOf (resolve : String → Option String) (items : List AItem) : List Area :=
  stableSort (fun a b => decide (b.sampleCount ≤ a.sampleCount))
    ((buildBuckets resolve items).map (fun pb => mkArea pb.1 pb.2))

/-! ## Association-list lemmas -/

theorem alLookup_alSet {κ α : Type} [DecidableEq κ] (m : List (κ × α)) (k : κ) (v : α)
    (k' : κ) :
    alLookup (alSet m k v) k' = if k = k' then some v else alLookup m k' := by
  induction m with
  | nil =>
    by_cases h : k = k' <;> simp [alSet, alLookup, h]
  | cons kv rest ih =>
    obtain ⟨k0, v0⟩ := kv
    by_cases h0 : k0 = k
    · subst h0
      by_cases h : k0 = k' <;> simp [alSet, alLookup, h]
    · by_cases h : k0 = k'
      · subst h
        have : ¬ k = k0 := fun hk => h0 hk.symm
        simp [alSet, alLookup, h0, this]
      · simp [alSet, alLookup, h0, h, ih]

theorem alSet_fresh {κ α : Type} [DecidableEq κ] (m : List (κ × α)) (k : κ) (v : α)
    (h : alLookup m k = none) :
    alSet m k v = m ++ [(k, v)] := by
  induction m with
  | nil => simp [alSet]
  | cons kv rest ih =>
    obtain ⟨k0, v0⟩ := kv
    by_cases h0 : k0 = k
    · simp [alLookup, h0] at h
    · simp only [alLookup, h0, if_neg] at h
      simp [alSet, h0, ih h]

theorem alLookup_append {κ α : Type} [DecidableEq κ] (m₁ m₂ : List (κ × α)) (k : κ) :
    alLookup (m₁ ++ m₂) k =
      match alLookup m₁ k with
      | some v => some v
      | none => alLookup m₂ k := by
  induction m₁ with
  | nil => simp [alLookup]
  | cons kv rest ih =>
    obtain ⟨k0, v0⟩ := kv
    by_cases h0 : k0 = k <;> simp [alLookup, h0, ih]

/-! ## C8: the bigram table counts exactly the adjacent filtered pairs -/

theorem alLookup_bumpCount (m : List (String × Nat)) (k : String) (v : Nat) (k' : String) :
    alLookup (bumpCount m k v) k' =
      if k = k' then some ((alLookup m k).getD 0 + v) else alLookup m k' := by
  unfold bumpCount
  exact alLookup_alSet m k _ k'

theorem foldBump_lookup {α : Type} (f : α → String) (ps : List α)
    (m : List (String × Nat)) (k : String) :
    (alLookup (ps.foldl (fun acc x => bumpCount acc (f x) 1) m) k).getD 0 =
      (alLookup m k).getD 0 + ps.countP (fun x => decide (f x = k)) := by
  induction ps generalizing m with
  | nil => simp
  | cons x rest ih =>
    simp only [List.foldl_cons, List.countP_cons, ih]
    rw [alLookup_bumpCount]
    by_cases h : f x = k
    · simp [h]
      omega
    · simp [h]

/-- C8 amended: for every title and summary, the bigram table of `phrases`
counts exactly the adjacent pairs of the stop-word-filtered token sequence
(pairs bridge across removed stop-words, no other pairs are formed); the
word "council" itself is a stop-word, so for the text
"council tax rise hits pensioners" the filtered sequence is
`["tax", "rise", "hits", "pensioners"]` and the table holds exactly
`"tax rise"`, `"rise hits"`, `"hits pensioners"`, each with count one. -/
theorem bigram_table_from_adjacent_pairs :
    (∀ (title summary : Option String) (k : String),
      (alLookup (phrasesJS title summary).bi k).getD 0 =
        (((tokensJS (jsStr title ++ " " ++ jsStr summary)).filter isContent).zip
            ((tokensJS (jsStr title ++ " " ++ jsStr summary)).filter isContent).tail).countP
          (fun p => decide (p.1 ++ " " ++ p.2 = k))) ∧
    ((tokensJS (jsStr (some "council tax rise hits pensioners") ++ " " ++
        jsStr (some ""))).filter isContent = ["tax", "rise", "hits", "pensioners"]) ∧
    (phrasesJS (some "council tax rise hits pensioners") (some "")).bi =
      [("tax rise", 1), ("rise hits", 1), ("hits pensioners", 1)] := by
  refine ⟨?_, by decide, by decide⟩
  intro title summary k
  unfold phrasesJS
  simp only
  have h := foldBump_lookup (fun p : String × String => p.1 ++ " " ++ p.2)
      (((tokensJS (jsStr title ++ " " ++ jsStr summary)).filter isContent).zip
        ((tokensJS (jsStr title ++ " " ++ jsStr summary)).filter isContent).tail) [] k
  simpa [alLookup] using h

/-- C8 counterexample: "council" is in the `STOP` list and is removed by the
content filter, so no filtered token sequence contains it — in particular
the text "council tax rise hits pensioners" filters to
`["tax", "rise", "hits", "pensioners"]` and its bigram table does *not*
contain the pair "council tax" asserted by the claim. -/
theorem bigram_stopword_ce :
    STOP.contains "council" = true ∧
    isContent "council" = false ∧
    (tokensJS ("council tax rise hits pensioners" ++ " " ++ "")).filter isContent =
      ["tax", "rise", "hits", "pensioners"] ∧
    alLookup (phrasesJS (some "council tax rise hits pensioners") (some "")).bi
      "council tax" = none := by
  refine ⟨?_, ?_, ?_, ?_⟩ <;> decide

/-! ## C10: unparseable links are harmless for place inference -/

/-- C10: `inferPlaces` is a total function of the item record, and whenever
the item's (possibly missing or malformed) link is not a parseable URL —
`resolve` returns `none`, as `new URL` throws — `hostnameOf` yields the
empty string and the hostname heuristic contributes nothing: the result is
exactly the union of the text-match, source-table and source-text
heuristics. -/
theorem inferPlaces_unparseable_link (resolve : String → Option String) (it : AItem)
    (h : resolve (orEmpty it.link) = none) :
    hostnameOf resolve (orEmpty it.link) = "" ∧
    inferPlaces resolve it =
      dedupFirst (placeFromText (orEmpty it.title ++ " " ++ orEmpty it.summary) ++
        (if trimJS (orEmpty it.source) ≠ "" then
          match objGet SOURCE_TO_PLACE (trimJS (orEmpty it.source)) with
          | some p => [p]
          | none => []
         else []) ++
        (if trimJS (orEmpty it.source) ≠ "" then placeFromText (trimJS (orEmpty it.source))
         else [])) := by
  have hh : hostnameOf resolve (orEmpty it.link) = "" := by
    unfold hostnameOf
    rw [h]
  refine ⟨hh, ?_⟩
  unfold inferPlaces
  rw [hh]
  simp

/-- A URL parser rejecting every string (the behaviour of `new URL` on the
malformed links used in the concrete runs below). -/
def resolveNone : String → Option String := fun _ => none

/-- An item whose link is not a URL but whose text and source still carry
places. -/
def witMalformed : AItem :=
  { title := some "Bolton by-election looms"
    summary := none
    link := some "not a url"
    source := some "Wigan Today"
    pubDate := none }

/-- Witness for C10: on `witMalformed` the hostname heuristic contributes
nothing and the remaining heuristics still yield both places. -/
theorem inferPlaces_unparseable_link_witness :
    hostnameOf resolveNone (orEmpty witMalformed.link) = "" ∧
    inferPlaces resolveNone witMalformed = ["Bolton", "Wigan"] := by
  have h := inferPlaces_unparseable_link resolveNone witMalformed rfl
  refine ⟨h.1, ?_⟩
  rw [h.2]
  decide

/-! ## C9: no keyword is a substring of a selected issue -/

/-- C9: in every output area bucket, no keyword occurs as a substring of any
selected issue phrase — the keyword filter drops precisely the top unigrams
contained in some issue, so in particular a word composing a selected top
bigram never also appears standalone in `keywords`. -/
theorem keywords_not_substrings_of_issues (resolve : String → Option String)
    (items : List AItem) (a : Area) (ha : a ∈ areasOf resolve items)
    (w : String) (hw : w ∈ a.keywords) (i : String) (hi : i ∈ a.issues) :
    includesL w.data i.data = false := by
  have ha' : a ∈ (buildBuckets resolve items).map (fun pb => mkArea pb.1 pb.2) :=
    (mem_stableSort _ _ a).mp ha
  rcases List.mem_map.mp ha' with ⟨pb, _, rfl⟩
  simp only [mkArea] at hw hi
  rcases List.mem_filter.mp hw with ⟨_, hpred⟩
  have hall : ((topN pb.2.bi 10).map (fun e => e.1)).any
      (fun j => includesL w.data j.data) = false := by
    simpa using hpred
  exact Bool.eq_false_iff.mpr (List.any_eq_false.mp hall i hi)

/-- An item placing "Bolton" via its text, contributing two bigrams. -/
def witBoltonCrisis : AItem :=
  { title := some "Bolton housing crisis"
    summary := some ""
    link := some "lc"
    source := some "X"
    pubDate := none }

/-- An item placing "Bolton" via its source, contributing the lone unigram
"pensioners" and no bigram. -/
def witPensioners : AItem :=
  { title := some "pensioners"
    summary := some ""
    link := some ""
    source := some "The Bolton News"
    pubDate := none }

/-- The single area produced by the run on the two items above. -/
def boltonArea : Area :=
  { place := "Bolton"
    sampleCount := 2
    issues := ["bolton housing", "housing crisis"]
    keywords := ["pensioners"]
    examples := [{ title := some "Bolton housing crisis", link := some "lc",
                   source := some "X", pubDate := none },
                 { title := some "pensioners", link := some "",
                   source := some "The Bolton News", pubDate := none }] }

/-- Witness for C9: on a concrete run whose Bolton bucket has both a
surviving keyword ("pensioners") and issues, the keyword is not a substring
of the issue "bolton housing". -/
theorem keywords_not_substrings_of_issues_witness :
    includesL "pensioners".data "bolton housing".data = false := by
  exact keywords_not_substrings_of_issues resolveNone [witBoltonCrisis, witPensioners]
    boltonArea (by decide) "pensioners" (by decide) "bolton housing" (by decide)

/-! ## C7: items matching two places land in both buckets -/

/-- An item whose text names both "Bolton" and "Wigan" as whole words. -/
def wigItem : AItem :=
  { title := some "Bolton and Wigan housing row", summary := some "",
    link := some "l9", source := some "X", pubDate := none }

/-- Eight Bolton-only items (distinct links) followed by `wigItem`. -/
def nineItems : List AItem :=
  [{ title := some "Bolton one", summary := some "", link := some "l1", source := some "X", pubDate := none },
   { title := some "Bolton two", summary := some "", link := some "l2", source := some "X", pubDate := none },
   { title := some "Bolton three", summary := some "", link := some "l3", source := some "X", pubDate := none },
   { title := some "Bolton four", summary := some "", link := some "l4", source := some "X", pubDate := none },
   { title := some "Bolton five", summary := some "", link := some "l5", source := some "X", pubDate := none },
   { title := some "Bolton six", summary := some "", link := some "l6", source := some "X", pubDate := none },
   { title := some "Bolton seven", summary := some "", link := some "l7", source := some "X", pubDate := none },
   { title := some "Bolton eight", summary := some "", link := some "l8", source := some "X", pubDate := none },
   wigItem]

/-- C7 counterexample: `wigItem` matches both places and is counted in both
buckets' `sampleCount`, but `examples` is truncated to the first 8 distinct
items of a bucket, so as the ninth Bolton item it does *not* appear in the
Bolton bucket's `examples` (while it does appear in Wigan's). -/
theorem place_union_examples_ce :
    inferPlaces resolveNone wigItem = ["Bolton", "Wigan"] ∧
    (areasOf resolveNone nineItems).map
        (fun a => (a.place, a.sampleCount, a.examples.length,
          decide (exampleOf wigItem ∈ a.examples))) =
      [("Bolton", 9, 8, false), ("Wigan", 1, 1, true)] := by
  exact ⟨by decide, by decide⟩

/-! ## Set/dedup lemmas -/

theorem mem_dedupFirstAux (seen l : List String) (a : String) :
    a ∈ dedupFirstAux seen l ↔ a ∈ l ∧ a ∉ seen := by
  induction l generalizing seen with
  | nil => simp [dedupFirstAux]
  | cons x xs ih =>
    by_cases hx : x ∈ seen
    · rw [dedupFirstAux, if_pos hx, ih]
      constructor
      · rintro ⟨h1, h2⟩
        exact ⟨List.mem_cons_of_mem x h1, h2⟩
      · rintro ⟨h1, h2⟩
        rcases List.mem_cons.mp h1 with rfl | h1
        · exact absurd hx h2
        · exact ⟨h1, h2⟩
    · rw [dedupFirstAux, if_neg hx]
      constructor
      · intro h
        rcases List.mem_cons.mp h with rfl | h
        · exact ⟨List.mem_cons_self a xs, hx⟩
        · rcases (ih (x :: seen)).mp h with ⟨h1, h2⟩
          exact ⟨List.mem_cons_of_mem x h1,
            fun hs => h2 (List.mem_cons_of_mem x hs)⟩
      · rintro ⟨h1, h2⟩
        by_cases hax : a = x
        · exact hax ▸ List.mem_cons_self x _
        · rcases List.mem_cons.mp h1 with rfl | h1
          · exact absurd rfl hax
          · refine List.mem_cons_of_mem x ((ih (x :: seen)).mpr ⟨h1, ?_⟩)
            intro hs
            rcases List.mem_cons.mp hs with rfl | hs
            · exact hax rfl
            · exact h2 hs

theorem nodup_dedupFirstAux (seen l : List String) :
    (dedupFirstAux seen l).Nodup := by
  induction l generalizing seen with
  | nil => simp [dedupFirstAux]
  | cons x xs ih =>
    by_cases hx : x ∈ seen
    · rw [dedupFirstAux, if_pos hx]
      exact ih seen
    · rw [dedupFirstAux, if_neg hx]
      refine List.nodup_cons.mpr ⟨?_, ih (x :: seen)⟩
      intro hmem
      rcases (mem_dedupFirstAux _ _ _).mp hmem with ⟨_, hns⟩
      exact hns (List.mem_cons_self x seen)

theorem inferPlaces_nodup (resolve : String → Option String) (it : AItem) :
    (inferPlaces resolve it).Nodup :=
  nodup_dedupFirstAux [] _

theorem text_place_mem_inferPlaces (resolve : String → Option String) (it : AItem)
    (p : String)
    (hp : p ∈ placeFromText (orEmpty it.title ++ " " ++ orEmpty it.summary)) :
    p ∈ inferPlaces resolve it := by
  unfold inferPlaces
  refine (mem_dedupFirstAux [] _ p).mpr ⟨?_, by simp⟩
  exact List.mem_append.mpr
    (Or.inl (List.mem_append.mpr (Or.inl (List.mem_append.mpr (Or.inl hp)))))

/-! ## Bucket projection lemmas -/

theorem alLookup_mem {κ α : Type} [DecidableEq κ] (m : List (κ × α)) (k : κ) (v : α)
    (h : alLookup m k = some v) : (k, v) ∈ m := by
  induction m with
  | nil => simp [alLookup] at h
  | cons kv rest ih =>
    obtain ⟨k0, v0⟩ := kv
    by_cases h0 : k0 = k
    · subst h0
      rw [alLookup, if_pos rfl] at h
      injection h with h
      subst h
      exact List.mem_cons_self _ _
    · rw [alLookup, if_neg h0] at h
      exact List.mem_cons_of_mem _ (ih h)

/-- The inner per-place update of `bucketStep`. -/
def placeUpd (it : AItem) (ph : Phrases) (acc : List (String × Bucket)) (p : String) :
    List (String × Bucket) :=
  alSet acc p (addToBucket ((alLookup acc p).getD emptyBucket) it ph)

theorem lookup_foldPlaces_notMem (places : List String) (p : String) (hp : p ∉ places)
    (bs : List (String × Bucket)) (it : AItem) (ph : Phrases) :
    alLookup (places.foldl (placeUpd it ph) bs) p = alLookup bs p := by
  induction places generalizing bs with
  | nil => rfl
  | cons q rest ih =>
    have hq : ¬ q = p := fun h => hp (h ▸ List.mem_cons_self q rest)
    rw [List.foldl_cons, ih (fun h => hp (List.mem_cons_of_mem q h))]
    rw [placeUpd, alLookup_alSet]
    simp [hq]

theorem lookup_foldPlaces (places : List String) (hnd : places.Nodup) (p : String)
    (bs : List (String × Bucket)) (it : AItem) (ph : Phrases) :
    alLookup (places.foldl (placeUpd it ph) bs) p =
      if p ∈ places
      then some (addToBucket ((alLookup bs p).getD emptyBucket) it ph)
      else alLookup bs p := by
  induction places generalizing bs with
  | nil => simp
  | cons q rest ih =>
    rcases List.nodup_cons.mp hnd with ⟨hq, hndr⟩
    rw [List.foldl_cons]
    by_cases hpq : p = q
    · subst hpq
      rw [lookup_foldPlaces_notMem rest p hq]
      rw [placeUpd, alLookup_alSet]
      simp
    · rw [ih hndr]
      have hqp : ¬ q = p := fun h => hpq h.symm
      have hbs : alLookup (placeUpd it ph bs q) p = alLookup bs p := by
        rw [placeUpd, alLookup_alSet]
        simp [hqp]
      rw [hbs]
      by_cases hpr : p ∈ rest
      · simp [hpr, List.mem_cons, hpq]
      · simp [hpr, List.mem_cons, hpq]

theorem lookup_bucketStep (resolve : String → Option String)
    (bs : List (String × Bucket)) (it : AItem) (p : String) :
    alLookup (bucketStep resolve bs it) p =
      if p ∈ inferPlaces resolve it
      then some (addToBucket ((alLookup bs p).getD emptyBucket) it
        (phrasesJS it.title it.summary))
      else alLookup bs p := by
  unfold bucketStep
  by_cases hemp : (inferPlaces resolve it).isEmpty
  · have hnm : p ∉ inferPlaces resolve it := by
      rw [List.isEmpty_iff.mp hemp]
      simp
    simp [hemp, hnm]
  · simp only [hemp, Bool.false_eq_true, if_false]
    exact lookup_foldPlaces _ (inferPlaces_nodup resolve it) p bs it _

/-- Folding a bucket option through a list of contributing items. -/
def bucketFold (o : Option Bucket) (l : List AItem) : Option Bucket :=
  l.foldl
    (fun acc it => some (addToBucket (acc.getD emptyBucket) it
      (phrasesJS it.title it.summary))) o

theorem lookup_buildBuckets (resolve : String → Option String)
    (items : List AItem) (p : String) :
    alLookup (buildBuckets resolve items) p =
      bucketFold none (items.filter (fun x => decide (p ∈ inferPlaces resolve x))) := by
  suffices h : ∀ bs, alLookup (items.foldl (bucketStep resolve) bs) p =
      bucketFold (alLookup bs p)
        (items.filter (fun x => decide (p ∈ inferPlaces resolve x))) by
    simpa using h []
  induction items with
  | nil => intro bs; rfl
  | cons it rest ih =>
    intro bs
    rw [List.foldl_cons, ih]
    by_cases hp : p ∈ inferPlaces resolve it
    · rw [List.filter_cons_of_pos (by simpa using hp)]
      rw [lookup_bucketStep]
      rw [if_pos hp]
      rfl
    · rw [List.filter_cons_of_neg (by simpa using hp)]
      rw [lookup_bucketStep]
      rw [if_neg hp]

/-- The effect of `addToBucket` on the per-place example map alone. -/
def entriesStep (es : List (Option String × BItem)) (it : AItem) :
    List (Option String × BItem) :=
  if (alLookup es (bucketKey it)).isSome then es
  else alSet es (bucketKey it) (exampleOf it)

theorem addToBucket_items (b : Bucket) (it : AItem) (ph : Phrases) :
    (addToBucket b it ph).items = entriesStep b.items it := rfl

theorem bucketFold_items (b : Bucket) (l : List AItem) :
    ∃ b', bucketFold (some b) l = some b' ∧
      b'.items = l.foldl entriesStep b.items := by
  induction l generalizing b with
  | nil => exact ⟨b, rfl, rfl⟩
  | cons it rest ih =>
    rcases ih (addToBucket b it (phrasesJS it.title it.summary)) with ⟨b', h1, h2⟩
    refine ⟨b', h1, ?_⟩
    rw [h2, addToBucket_items, List.foldl_cons]

theorem foldl_entriesStep_fresh (l : List AItem) (es : List (Option String × BItem))
    (hfresh : ∀ it ∈ l, alLookup es (bucketKey it) = none)
    (hnd : (l.map bucketKey).Nodup) :
    l.foldl entriesStep es = es ++ l.map (fun it => (bucketKey it, exampleOf it)) := by
  induction l generalizing es with
  | nil => simp
  | cons it rest ih =>
    have hfit : alLookup es (bucketKey it) = none := hfresh it (List.mem_cons_self _ _)
    have hstep : entriesStep es it = es ++ [(bucketKey it, exampleOf it)] := by
      rw [entriesStep, hfit]
      simp [alSet_fresh es _ _ hfit]
    have hnd2 : (bucketKey it :: rest.map bucketKey).Nodup := by simpa using hnd
    rcases List.nodup_cons.mp hnd2 with ⟨hk, hndr⟩
    rw [List.foldl_cons, hstep]
    rw [ih (es ++ [(bucketKey it, exampleOf it)]) ?_ hndr]
    · simp
    · intro it' hit'
      rw [alLookup_append, hfresh it' (List.mem_cons_of_mem _ hit')]
      have hne : ¬ bucketKey it = bucketKey it' :=
        fun h => hk (h ▸ List.mem_map_of_mem bucketKey hit')
      simp [alLookup, hne]

/-- The place-`p` area of a run: it exists as soon as some item is inferred
to `p`, and — when item keys are pairwise distinct — its `sampleCount` is
the number of contributing items and its `examples` are the first 8 of
their stored example rows. -/
theorem bucket_of_place (resolve : String → Option String) (items : List AItem)
    (p : String) (hnd : (items.map bucketKey).Nodup)
    (hne : items.filter (fun x => decide (p ∈ inferPlaces resolve x)) ≠ []) :
    ∃ a ∈ areasOf resolve items,
      a.place = p ∧
      a.sampleCount =
        (items.filter (fun x => decide (p ∈ inferPlaces resolve x))).length ∧
      a.examples =
        ((items.filter (fun x => decide (p ∈ inferPlaces resolve x))).map
          exampleOf).take 8 := by
  set rel := items.filter (fun x => decide (p ∈ inferPlaces resolve x)) with hrel
  have hlk := lookup_buildBuckets resolve items p
  rw [← hrel] at hlk
  have hrelnd : (rel.map bucketKey).Nodup :=
    List.Nodup.sublist (List.Sublist.map bucketKey (List.filter_sublist items)) hnd
  obtain ⟨it0, rest, hcons⟩ : ∃ it0 rest, rel = it0 :: rest := by
    cases h : rel with
    | nil => exact absurd h hne
    | cons a l => exact ⟨a, l, rfl⟩
  rw [hcons] at hlk
  have hf0 : bucketFold none (it0 :: rest) =
      bucketFold (some (addToBucket emptyBucket it0 (phrasesJS it0.title it0.summary)))
        rest := rfl
  rw [hf0] at hlk
  rcases bucketFold_items (addToBucket emptyBucket it0 (phrasesJS it0.title it0.summary))
    rest with ⟨b', hb1, hb2⟩
  rw [hb1] at hlk
  have hitems : b'.items = rel.map (fun it => (bucketKey it, exampleOf it)) := by
    rw [hb2, addToBucket_items]
    have hfold : (it0 :: rest).foldl entriesStep emptyBucket.items =
        emptyBucket.items ++ (it0 :: rest).map (fun it => (bucketKey it, exampleOf it)) :=
      foldl_entriesStep_fresh (it0 :: rest) emptyBucket.items (fun _ _ => rfl)
        (hcons ▸ hrelnd)
    rw [show List.foldl entriesStep (entriesStep emptyBucket.items it0) rest =
        (it0 :: rest).foldl entriesStep emptyBucket.items from rfl]
    rw [hfold, hcons]
    rfl
  have hmem : (p, b') ∈ buildBuckets resolve items := alLookup_mem _ _ _ hlk
  refine ⟨mkArea p b', ?_, rfl, ?_, ?_⟩
  · apply (mem_stableSort _ _ _).mpr
    exact List.mem_map.mpr ⟨(p, b'), hmem, rfl⟩
  · show b'.items.length = rel.length
    rw [hitems, List.length_map]
  · show (b'.items.map (fun kv => kv.2)).take 8 = (rel.map exampleOf).take 8
    rw [hitems, List.map_map]
    rfl

/-- C7 amended: an item whose title+summary text contains two distinct
configured place names as whole words gets both places from `inferPlaces`
and is added to both places' buckets; when item keys (`link || title`) are
pairwise distinct, each such bucket's `sampleCount` counts the item (it
equals the number of contributing items), while the item appears among a
bucket's `examples` only if it is among that bucket's first 8 items —
`examples` is truncated to 8 entries. -/
theorem place_union_both_buckets (resolve : String → Option String)
    (items : List AItem) (it : AItem)
    (hnd : (items.map bucketKey).Nodup) (hit : it ∈ items)
    (p1 p2 : String)
    (hp1 : p1 ∈ placeFromText (orEmpty it.title ++ " " ++ orEmpty it.summary))
    (hp2 : p2 ∈ placeFromText (orEmpty it.title ++ " " ++ orEmpty it.summary))
    (_hne : p1 ≠ p2) :
    p1 ∈ inferPlaces resolve it ∧ p2 ∈ inferPlaces resolve it ∧
    ∀ p, p ∈ inferPlaces resolve it →
      ∃ a ∈ areasOf resolve items,
        a.place = p ∧
        a.sampleCount =
          (items.filter (fun x => decide (p ∈ inferPlaces resolve x))).length ∧
        a.examples =
          ((items.filter (fun x => decide (p ∈ inferPlaces resolve x))).map
            exampleOf).take 8 ∧
        exampleOf it ∈
          (items.filter (fun x => decide (p ∈ inferPlaces resolve x))).map exampleOf := by
  refine ⟨text_place_mem_inferPlaces resolve it p1 hp1,
          text_place_mem_inferPlaces resolve it p2 hp2, ?_⟩
  intro p hp
  have hmemrel : it ∈ items.filter (fun x => decide (p ∈ inferPlaces resolve x)) :=
    List.mem_filter.mpr ⟨hit, by simpa using hp⟩
  have hne' : items.filter (fun x => decide (p ∈ inferPlaces resolve x)) ≠ [] := by
    intro h
    rw [h] at hmemrel
    exact absurd hmemrel (List.not_mem_nil it)
  rcases bucket_of_place resolve items p hnd hne' with ⟨a, ha, h1, h2, h3⟩
  exact ⟨a, ha, h1, h2, h3, List.mem_map_of_mem exampleOf hmemrel⟩

/-- A single item naming two places. -/
def wigSolo : AItem :=
  { title := some "Bolton and Wigan clash over housing", summary := some "",
    link := some "lw", source := some "Y", pubDate := none }

/-- Witness for C7 (amended): the two-place item gets both places inferred
(and, via the theorem, lands in both buckets of its run). -/
theorem place_union_both_buckets_witness :
    "Bolton" ∈ inferPlaces resolveNone wigSolo ∧
    "Wigan" ∈ inferPlaces resolveNone wigSolo := by
  have h := place_union_both_buckets resolveNone [wigSolo] wigSolo (by decide)
    (by decide) "Bolton" "Wigan" (by decide) (by decide) (by decide)
  exact ⟨h.1, h.2.1⟩
